import Mathlib

/-!
Shallow embedding of the `circulis` ring buffer (Go package `circulis`,
file `circulis.go`) and verification of its specification.

Modelling conventions:
* Go byte slices become `List Nat` (each element a byte value).
* The `uint64` cursors `head` and `tail` are represented by their monotonic
  mathematical values as `Nat`; this is faithful because the code maintains
  `tail - head ≤ len(buf) < 2^64`, so every `uint64` subtraction the code
  performs coincides with the `Nat` subtraction, and `tail & mask` depends
  only on the value modulo the power-of-two capacity.
* `nextPowerOfTwo` works on `uint64`; its arithmetic is embedded with an
  explicit `% 2^64` where overflow is possible.
* `panic` in `New` is modelled by `Option`: `none` is the panic.
* Condition-variable waits cannot return in a sequential model; a `Write` or
  `Read` that reaches `Wait()` is modelled by a distinguished `wait` outcome
  carrying the state at the moment of suspension.  `Signal`/`Broadcast` have
  no effect on the sequential state and are dropped.
-/

/-- The three sentinel errors `ErrClosed`, `ErrFull`, `ErrEmpty`. -/
inductive GoErr where
  | closed
  | full
  | empty
  deriving DecidableEq, Repr

/-- State of a `Circulis` ring buffer: storage, mask, the two monotonic
cursors, and the `closed` / `blocking` flags (from `struct Circulis`). -/
structure Circulis where
  buf : List Nat
  mask : Nat
  head : Nat
  tail : Nat
  closed : Bool
  blocking : Bool
  deriving DecidableEq, Repr

/-- `nextPowerOfTwo` from `circulis.go`: the bit-smearing trick on `uint64`.
The final increment is reduced `% 2^64` as in the machine arithmetic; all
other steps cannot leave `[0, 2^64)` when the input is below `2^64`. -/
def nextPowerOfTwo (v : Nat) : Nat :=
  if v = 0 then 1
  else
    let v1 := v - 1
    let v2 := v1 ||| (v1 >>> 1)
    let v3 := v2 ||| (v2 >>> 2)
    let v4 := v3 ||| (v3 >>> 4)
    let v5 := v4 ||| (v4 >>> 8)
    let v6 := v5 ||| (v5 >>> 16)
    let v7 := v6 ||| (v6 >>> 32)
    (v7 + 1) % 2 ^ 64

/-- `New(capacity int)` from `circulis.go`.  A Go `int` is a signed 64-bit
integer, hence the `Int` argument; a panic is `none`.  Two panics exist:
the explicit `capacity < 1` precondition, and `make([]byte, cap2)`, which
panics with "len out of range" whenever `cap2` exceeds the maximum Go
slice length `2^63 - 1` (this happens for capacities in
`(2^62, 2^63-1]`, where `cap2 = 2^63`).  Otherwise `make` zero-fills the
storage. -/
def New (capacity : Int) : Option Circulis :=
  if capacity < 1 then none
  else
    let cap2 := nextPowerOfTwo capacity.toNat
    if 2 ^ 63 - 1 < cap2 then none
    else
      some { buf := List.replicate cap2 0
             mask := cap2 - 1
             head := 0
             tail := 0
             closed := false
             blocking := false }

/-- `SetBlocking` from `circulis.go` (the broadcasts have no sequential
effect). -/
def SetBlocking (c : Circulis) (blocking : Bool) : Circulis :=
  { c with blocking := blocking }

/-- `Close` from `circulis.go` (the broadcasts have no sequential effect). -/
def Close (c : Circulis) : Circulis :=
  { c with closed := true }

/-- Go's builtin `copy(dst[start:], src)`: overwrite `dst` from index `start`
with the elements of `src`, copying `min (dst.length - start) src.length`
elements, leaving everything else (and the length) unchanged. -/
def copyInto (dst : List Nat) (start : Nat) (src : List Nat) : List Nat :=
  dst.take start ++ src.take (dst.length - start) ++ dst.drop (start + src.length)

/-- Outcome of one `Write` call: either the call returns `(n, err)`, or it
suspends in `c.notFull.Wait()` with `n` bytes already placed. -/
inductive WriteOut where
  | ret (n : Nat) (err : Option GoErr)
  | wait (n : Nat)
  deriving DecidableEq, Repr

/-- The two-segment wraparound copy of `Write` in `circulis.go`: place
`data` into `buf` starting at physical offset `start`, the first segment of
length `first = min (len data) (len buf - start)` at `start`, the remainder
(if any) at offset 0.  (`data` is the slice `p[n : n+toWrite]`, so
`data.take first = p[n : n+first]` and
`(data.drop first).take second = p[n+first : n+first+second]`.) -/
def twoSegWrite (buf : List Nat) (start : Nat) (data : List Nat) : List Nat :=
  let endSpace := buf.length - start
  let first := if data.length > endSpace then endSpace else data.length
  let buf1 := copyInto buf start (data.take first)
  let second := data.length - first
  if second > 0 then copyInto buf1 0 ((data.drop first).take second) else buf1

/-- The body of `Write`'s loop for the case `free ≠ 0`: clamp `toWrite` to
the free space, do the two-segment masked copy, advance `tail`.  Returns the
updated state and `toWrite`. -/
def writeChunk (c : Circulis) (p : List Nat) (n free : Nat) : Circulis × Nat :=
  let toWrite0 := p.length - n
  let toWrite := if toWrite0 > free then free else toWrite0
  let start := c.tail &&& c.mask
  let buf2 := twoSegWrite c.buf start ((p.drop n).take toWrite)
  ({ c with buf := buf2, tail := c.tail + toWrite }, toWrite)

lemma writeChunk_snd_pos (c : Circulis) (p : List Nat) (n free : Nat)
    (hn : n < p.length) (hfree : free ≠ 0) :
    0 < (writeChunk c p n free).2 := by
  simp only [writeChunk]
  split <;> omega

/-- The `for n < total` loop of `Write` in `circulis.go`, entered with `n`
bytes of `p` already placed: free-space computation, the full-buffer
branches, and otherwise one `writeChunk` pass. -/
def writeLoop (c : Circulis) (p : List Nat) (n : Nat) : Circulis × WriteOut :=
  let total := p.length
  if h : n < total then
    let free := c.buf.length - (c.tail - c.head)
    if hfree : free = 0 then
      if !c.blocking then
        if n = 0 then (c, .ret 0 (some .full))
        else (c, .ret n (some .full))
      else
        (c, .wait n)
    else
      let step := writeChunk c p n free
      writeLoop step.1 p (n + step.2)
  else (c, .ret n none)
termination_by p.length - n
decreasing_by
  have := writeChunk_snd_pos c p n (c.buf.length - (c.tail - c.head)) h hfree
  omega

/-- `Write` from `circulis.go`: the closed check, then the writing loop. -/
def Write (c : Circulis) (p : List Nat) : Circulis × WriteOut :=
  if c.closed then (c, .ret 0 (some .closed))
  else writeLoop c p 0

/-- Outcome of one `Read` call: the (possibly updated) caller buffer together
with `(n, err)`, or suspension in `c.notEmpty.Wait()`. -/
inductive ReadOut where
  | ret (p : List Nat) (n : Nat) (err : Option GoErr)
  | wait (p : List Nat)
  deriving DecidableEq, Repr

/-- The two-segment wraparound copy of `Read` in `circulis.go`: fill the
caller buffer `p` with `toRead` bytes taken from physical offset `start` of
`buf`, the first segment `buf[start : start+first]` into `p[0 : first]`,
the remainder (if any) `buf[0 : second]` into `p[first : first+second]`. -/
def twoSegRead (buf : List Nat) (start : Nat) (p : List Nat) (toRead : Nat) :
    List Nat :=
  let endSpace := buf.length - start
  let first := if toRead > endSpace then endSpace else toRead
  let p1 := copyInto p 0 ((buf.drop start).take first)
  let second := toRead - first
  if second > 0 then copyInto p1 first (buf.take second) else p1

/-- `Read` from `circulis.go`.  The `for` loop only repeats through
`c.notEmpty.Wait()`, so a single pass with a `wait` outcome captures one
lock-holding execution exactly. -/
def Read (c : Circulis) (p : List Nat) : Circulis × ReadOut :=
  let available := c.tail - c.head
  if available = 0 then
    if c.closed then (c, .ret p 0 (some .closed))
    else if !c.blocking then (c, .ret p 0 (some .empty))
    else (c, .wait p)
  else
    let toRead0 := p.length
    let toRead := if toRead0 > available then available else toRead0
    let start := c.head &&& c.mask
    let p2 := twoSegRead c.buf start p toRead
    ({ c with head := c.head + toRead }, .ret p2 toRead none)

/-- Well-formedness of a buffer state: power-of-two storage, matching mask,
and the cursor invariant `head ≤ tail ≤ head + capacity`. -/
def wf (c : Circulis) : Prop :=
  (∃ k : Nat, c.buf.length = 2 ^ k) ∧
  c.mask + 1 = c.buf.length ∧
  c.head ≤ c.tail ∧
  c.tail - c.head ≤ c.buf.length

/-- The abstract FIFO contents of the buffer: the bytes at the masked
positions `head, head+1, …, tail-1`. -/
def contents (c : Circulis) : List Nat :=
  (List.range (c.tail - c.head)).map (fun i => c.buf.getD ((c.head + i) &&& c.mask) 0)

/-! ### Basic helper lemmas -/

lemma ite_gt_eq_min (a b : Nat) : (if a > b then b else a) = min a b := by
  split <;> omega

lemma copyInto_length (dst : List Nat) (start : Nat) (src : List Nat)
    (h : start ≤ dst.length) : (copyInto dst start src).length = dst.length := by
  simp [copyInto]
  omega

lemma copyInto_getElem? (dst : List Nat) (start : Nat) (src : List Nat)
    (h : start + src.length ≤ dst.length) (j : Nat) :
    (copyInto dst start src)[j]? =
      if start ≤ j ∧ j < start + src.length then src[j - start]? else dst[j]? := by
  have hstart : start ≤ dst.length := by omega
  have hsrc : src.take (dst.length - start) = src :=
    List.take_of_length_le (by omega)
  have hA : (dst.take start).length = start := by
    rw [List.length_take]; omega
  have hAB : (dst.take start ++ src).length = start + src.length := by
    rw [List.length_append, hA]
  unfold copyInto
  rw [hsrc, List.getElem?_append, hAB]
  rcases Nat.lt_or_ge j (start + src.length) with hj1 | hj1
  · rw [if_pos hj1, List.getElem?_append, hA]
    rcases Nat.lt_or_ge j start with hj | hj
    · rw [if_pos hj, List.getElem?_take, if_pos hj,
        if_neg (by omega : ¬ (start ≤ j ∧ j < start + src.length))]
    · rw [if_neg (by omega), if_pos ⟨hj, hj1⟩]
  · rw [if_neg (by omega), List.getElem?_drop,
      if_neg (by omega : ¬ (start ≤ j ∧ j < start + src.length))]
    congr 1
    omega

lemma getElem?_range' (n m : Nat) :
    (List.range n)[m]? = if m < n then some m else none := by
  split
  · exact List.getElem?_range (by assumption)
  · exact List.getElem?_eq_none (by simp; omega)

lemma mod_ne_of_between {L a b : Nat} (hab : a < b) (hd : b - a < L) :
    a % L ≠ b % L := by
  intro h
  have hdvd : L ∣ b - a := (Nat.modEq_iff_dvd' (Nat.le_of_lt hab)).mp h
  have : L ≤ b - a := Nat.le_of_dvd (by omega) hdvd
  omega

lemma and_mask_eq_mod (c : Circulis) (hwf : wf c) (x : Nat) :
    x &&& c.mask = x % c.buf.length := by
  obtain ⟨⟨k, hk⟩, hm, _, _⟩ := hwf
  have : c.mask = 2 ^ k - 1 := by omega
  rw [this, Nat.and_pow_two_sub_one_eq_mod, hk]

lemma contents_getElem? (c : Circulis) (i : Nat) :
    (contents c)[i]? =
      if i < c.tail - c.head then some (c.buf.getD ((c.head + i) &&& c.mask) 0)
      else none := by
  simp only [contents, List.getElem?_map, getElem?_range']
  split <;> simp

lemma contents_length (c : Circulis) : (contents c).length = c.tail - c.head := by
  simp [contents]

lemma getElem?_eq_some_getD (l : List Nat) (j : Nat) (h : j < l.length) :
    l[j]? = some (l.getD j 0) := by
  rw [List.getElem?_eq_getElem h, List.getD_eq_getElem?_getD,
    List.getElem?_eq_getElem h]
  rfl

lemma mod_eq_sub_of_between {L x : Nat} (h1 : L ≤ x) (h2 : x < 2 * L) :
    x % L = x - L := by
  rw [Nat.mod_eq_sub_mod h1, Nat.mod_eq_of_lt (by omega)]

/-! ### Characterization of the two-segment wraparound copy -/

lemma twoSegWrite_length (buf : List Nat) (start : Nat) (data : List Nat)
    (h : start ≤ buf.length) :
    (twoSegWrite buf start data).length = buf.length := by
  have h1 : ∀ src : List Nat, (copyInto buf start src).length = buf.length :=
    fun src => copyInto_length _ _ _ h
  have h2 : ∀ (dst src : List Nat), (copyInto dst 0 src).length = dst.length :=
    fun dst src => copyInto_length _ _ _ (Nat.zero_le _)
  simp only [twoSegWrite]
  split_ifs <;> simp [h1, h2]

/-- Bytes of the window written by `twoSegWrite`: physical slot
`(start + i) % len` holds `data[i]`. -/
lemma twoSegWrite_getElem_new (buf : List Nat) (start : Nat) (data : List Nat)
    (hstart : start < buf.length) (hd : data.length ≤ buf.length)
    (i : Nat) (hi : i < data.length) :
    (twoSegWrite buf start data)[(start + i) % buf.length]? = data[i]? := by
  have hL0 : 0 < buf.length := by omega
  simp only [twoSegWrite]
  rw [ite_gt_eq_min]
  set L := buf.length with hL
  set fst := min data.length (L - start) with hfst
  have hfst1 : fst ≤ L - start := Nat.min_le_right _ _
  have hfst2 : fst ≤ data.length := Nat.min_le_left _ _
  have htake : (data.take fst).length = fst := by rw [List.length_take]; omega
  have hb1len : (copyInto buf start (data.take fst)).length = L :=
    copyInto_length _ _ _ (by omega)
  have hb1 : ∀ j, (copyInto buf start (data.take fst))[j]? =
      if start ≤ j ∧ j < start + fst then (data.take fst)[j - start]? else buf[j]? := by
    intro j
    have h0 := copyInto_getElem? buf start (data.take fst) (by rw [htake]; omega) j
    rwa [htake] at h0
  set snd := data.length - fst with hsnd
  have hlen2 : ((data.drop fst).take snd).length = snd := by
    rw [List.length_take, List.length_drop]; omega
  have hb2 : ∀ j, (copyInto (copyInto buf start (data.take fst)) 0
      ((data.drop fst).take snd))[j]? =
      if j < snd then ((data.drop fst).take snd)[j]?
      else (copyInto buf start (data.take fst))[j]? := by
    intro j
    have h0 := copyInto_getElem? (copyInto buf start (data.take fst)) 0
      ((data.drop fst).take snd) (by rw [hb1len, hlen2]; omega) j
    rw [hlen2] at h0
    rw [h0]
    by_cases hj : j < snd
    · rw [if_pos ⟨Nat.zero_le _, by omega⟩, if_pos hj]
      congr 1
    · rw [if_neg (by omega), if_neg hj]
  rcases Nat.lt_or_ge i fst with hil | hig
  · -- first segment: physical index start + i, no wrap
    have hidx : (start + i) % L = start + i := Nat.mod_eq_of_lt (by omega)
    rw [hidx]
    have hmain : (copyInto buf start (data.take fst))[start + i]? = data[i]? := by
      rw [hb1, if_pos ⟨by omega, by omega⟩]
      have he : start + i - start = i := by omega
      rw [he, List.getElem?_take, if_pos hil]
    split
    · -- a second segment exists; start + i lies outside it
      rename_i hsndpos
      have hfsteq : fst = L - start := by omega
      have hsndle : snd ≤ start := by omega
      rw [hb2, if_neg (by omega)]
      exact hmain
    · exact hmain
  · -- wrapped segment: fst = L - start, physical index i - fst
    have hfsteq : fst = L - start := by omega
    have hsndpos : 0 < snd := by omega
    have hidx : (start + i) % L = i - fst := by
      rw [mod_eq_sub_of_between (by omega) (by omega)]; omega
    rw [if_pos hsndpos, hidx, hb2, if_pos (by omega), List.getElem?_take,
      if_pos (by omega), List.getElem?_drop]
    congr 1
    omega

/-- Slots outside the written window keep their bytes. -/
lemma twoSegWrite_getElem_old (buf : List Nat) (start : Nat) (data : List Nat)
    (hstart : start < buf.length) (hd : data.length ≤ buf.length)
    (j : Nat) (hfar : ∀ i, i < data.length → j ≠ (start + i) % buf.length) :
    (twoSegWrite buf start data)[j]? = buf[j]? := by
  have hL0 : 0 < buf.length := by omega
  simp only [twoSegWrite]
  rw [ite_gt_eq_min]
  set L := buf.length with hL
  set fst := min data.length (L - start) with hfst
  have hfst1 : fst ≤ L - start := Nat.min_le_right _ _
  have hfst2 : fst ≤ data.length := Nat.min_le_left _ _
  have htake : (data.take fst).length = fst := by rw [List.length_take]; omega
  have hb1len : (copyInto buf start (data.take fst)).length = L :=
    copyInto_length _ _ _ (by omega)
  have hnot1 : ¬ (start ≤ j ∧ j < start + fst) := by
    rintro ⟨h1, h2⟩
    exact hfar (j - start) (by omega)
      (by rw [Nat.mod_eq_of_lt (by omega)]; omega)
  have hmain : (copyInto buf start (data.take fst))[j]? = buf[j]? := by
    have h0 := copyInto_getElem? buf start (data.take fst) (by rw [htake]; omega) j
    rw [htake] at h0
    rw [h0, if_neg hnot1]
  set snd := data.length - fst with hsnd
  split
  · rename_i hsndpos
    have hfsteq : fst = L - start := by omega
    have hlen2 : ((data.drop fst).take snd).length = snd := by
      rw [List.length_take, List.length_drop]; omega
    have hnot2 : ¬ (0 ≤ j ∧ j < 0 + snd) := by
      rintro ⟨-, h2⟩
      refine hfar (fst + j) (by omega) ?_
      have he : start + (fst + j) = L + j := by omega
      rw [he, Nat.add_mod_left, Nat.mod_eq_of_lt (by omega)]
    have h0 := copyInto_getElem? (copyInto buf start (data.take fst)) 0
      ((data.drop fst).take snd) (by rw [hb1len, hlen2]; omega) j
    rw [hlen2] at h0
    rw [h0, if_neg hnot2]
    exact hmain
  · exact hmain

/-! ### Specification of one write chunk -/

lemma writeChunk_tw (c : Circulis) (p : List Nat) (n f : Nat) :
    (writeChunk c p n f).2 = min (p.length - n) f := by
  simp only [writeChunk, ite_gt_eq_min]

lemma writeChunk_fields (c : Circulis) (p : List Nat) (n f : Nat) :
    (writeChunk c p n f).1.head = c.head ∧
    (writeChunk c p n f).1.mask = c.mask ∧
    (writeChunk c p n f).1.closed = c.closed ∧
    (writeChunk c p n f).1.blocking = c.blocking ∧
    (writeChunk c p n f).1.tail = c.tail + (writeChunk c p n f).2 := by
  simp [writeChunk]

lemma writeChunk_buflen (c : Circulis) (p : List Nat) (n f : Nat)
    (hm : c.mask + 1 = c.buf.length) :
    (writeChunk c p n f).1.buf.length = c.buf.length := by
  have hstart : c.tail &&& c.mask ≤ c.buf.length := by
    have := Nat.and_le_right (n := c.tail) (m := c.mask)
    omega
  simp only [writeChunk]
  exact twoSegWrite_length _ _ _ hstart

lemma contents_twoSeg (c : Circulis) (data : List Nat) (hwf : wf c)
    (hfit : (c.tail - c.head) + data.length ≤ c.buf.length) :
    contents ⟨twoSegWrite c.buf (c.tail &&& c.mask) data, c.mask, c.head,
              c.tail + data.length, c.closed, c.blocking⟩ = contents c ++ data := by
  obtain ⟨⟨k, hk⟩, hm, hht, hcap⟩ := id hwf
  have hL0 : 0 < c.buf.length := by omega
  have hmaskc : ∀ x, x &&& c.mask = x % c.buf.length := and_mask_eq_mod c hwf
  have hstartlt : c.tail &&& c.mask < c.buf.length := by
    rw [hmaskc]; exact Nat.mod_lt _ hL0
  have hd : data.length ≤ c.buf.length := by omega
  have hBlen : (twoSegWrite c.buf (c.tail &&& c.mask) data).length = c.buf.length :=
    twoSegWrite_length _ _ _ (by omega)
  apply List.ext_getElem?
  intro i
  simp only [contents_getElem?, List.getElem?_append, contents_length]
  rcases Nat.lt_or_ge i (c.tail - c.head) with hi | hi
  · -- untouched prefix of the ring
    have hj : (c.head + i) % c.buf.length < c.buf.length := Nat.mod_lt _ hL0
    rw [if_pos (by omega), if_pos hi, if_pos hi,
      show c.head + i &&& c.mask = (c.head + i) % c.buf.length from hmaskc _]
    have hfar : ∀ i', i' < data.length →
        (c.head + i) % c.buf.length ≠ ((c.tail &&& c.mask) + i') % c.buf.length := by
      intro i' hi'
      rw [hmaskc c.tail, Nat.mod_add_mod]
      exact mod_ne_of_between (by omega) (by omega)
    have h3 := twoSegWrite_getElem_old c.buf (c.tail &&& c.mask) data hstartlt hd
      ((c.head + i) % c.buf.length) hfar
    rw [getElem?_eq_some_getD _ _ (by omega),
      getElem?_eq_some_getD _ _ (by omega)] at h3
    exact h3
  · rcases Nat.lt_or_ge i (c.tail - c.head + data.length) with hi2 | hi2
    · -- the freshly written window
      rw [if_pos (by omega), if_neg (by omega)]
      have hj2 : ((c.tail &&& c.mask) + (i - (c.tail - c.head))) % c.buf.length
          < c.buf.length := Nat.mod_lt _ hL0
      have hidx : c.head + i &&& c.mask =
          ((c.tail &&& c.mask) + (i - (c.tail - c.head))) % c.buf.length := by
        rw [hmaskc (c.head + i), hmaskc c.tail, Nat.mod_add_mod]
        congr 1
        omega
      have hB := twoSegWrite_getElem_new c.buf (c.tail &&& c.mask) data hstartlt hd
        (i - (c.tail - c.head)) (by omega)
      rw [getElem?_eq_some_getD _ _ (by omega)] at hB
      rw [hidx]
      exact hB
    · -- beyond the new tail: both sides are none
      rw [if_neg (by omega), if_neg (by omega),
        List.getElem?_eq_none (by omega)]

/-- Closed form of `writeChunk`. -/
lemma writeChunk_eq (c : Circulis) (p : List Nat) (n f : Nat) :
    writeChunk c p n f =
      (⟨twoSegWrite c.buf (c.tail &&& c.mask)
          ((p.drop n).take (min (p.length - n) f)), c.mask, c.head,
        c.tail + min (p.length - n) f, c.closed, c.blocking⟩,
       min (p.length - n) f) := by
  simp only [writeChunk, ite_gt_eq_min]

/-- One chunk of a write appends the copied slice to the FIFO contents. -/
lemma writeChunk_contents (c : Circulis) (p : List Nat) (n : Nat)
    (hwf : wf c) (hn : n ≤ p.length)
    (hfree : c.buf.length - (c.tail - c.head) ≠ 0) :
    contents (writeChunk c p n (c.buf.length - (c.tail - c.head))).1 =
      contents c ++
        (p.drop n).take (min (p.length - n) (c.buf.length - (c.tail - c.head))) := by
  obtain ⟨⟨k, hk⟩, hm, hht, hcap⟩ := id hwf
  rw [writeChunk_eq]
  have hlen : ((p.drop n).take (min (p.length - n)
      (c.buf.length - (c.tail - c.head)))).length =
      min (p.length - n) (c.buf.length - (c.tail - c.head)) := by
    rw [List.length_take, List.length_drop]
    omega
  have h0 := contents_twoSeg c
    ((p.drop n).take (min (p.length - n) (c.buf.length - (c.tail - c.head))))
    hwf (by rw [hlen]; omega)
  rw [hlen] at h0
  exact h0

/-! ### Unfolding and stepping lemmas for the write loop -/

lemma writeLoop_base (c : Circulis) (p : List Nat) (n : Nat) (h : ¬ n < p.length) :
    writeLoop c p n = (c, .ret n none) := by
  rw [writeLoop]
  simp [h]

lemma writeLoop_full_stop (c : Circulis) (p : List Nat) (n : Nat)
    (h : n < p.length) (hfree : c.buf.length - (c.tail - c.head) = 0)
    (hnb : c.blocking = false) :
    writeLoop c p n = (c, .ret n (some .full)) := by
  rw [writeLoop]
  rcases Nat.eq_zero_or_pos n with hn | hn
  · subst hn
    simp [h, hfree, hnb]
  · simp [h, hfree, hnb]
    omega

lemma writeLoop_full_wait (c : Circulis) (p : List Nat) (n : Nat)
    (h : n < p.length) (hfree : c.buf.length - (c.tail - c.head) = 0)
    (hb : c.blocking = true) :
    writeLoop c p n = (c, .wait n) := by
  rw [writeLoop]
  simp [h, hfree, hb]

lemma writeLoop_step (c : Circulis) (p : List Nat) (n : Nat)
    (h : n < p.length) (hfree : ¬ c.buf.length - (c.tail - c.head) = 0) :
    writeLoop c p n =
      writeLoop (writeChunk c p n (c.buf.length - (c.tail - c.head))).1 p
        (n + (writeChunk c p n (c.buf.length - (c.tail - c.head))).2) := by
  conv_lhs => rw [writeLoop]
  simp [h, hfree]

/-- A write whose remainder fits entirely in the free space succeeds in one
chunk and appends the remainder to the contents. -/
lemma writeLoop_fits (c : Circulis) (p : List Nat) (n : Nat)
    (hwf : wf c) (hn : n ≤ p.length)
    (hfits : p.length - n ≤ c.buf.length - (c.tail - c.head)) :
    ∃ c', writeLoop c p n = (c', .ret p.length none) ∧
      c'.head = c.head ∧ c'.tail = c.tail + (p.length - n) ∧
      c'.mask = c.mask ∧ c'.closed = c.closed ∧ c'.blocking = c.blocking ∧
      c'.buf.length = c.buf.length ∧
      contents c' = contents c ++ p.drop n := by
  obtain ⟨⟨k, hk⟩, hm, hht, hcap⟩ := id hwf
  rcases Nat.eq_or_lt_of_le hn with he | hlt
  · refine ⟨c, ?_, rfl, by omega, rfl, rfl, rfl, rfl, ?_⟩
    · rw [writeLoop_base c p n (by omega), he]
    · rw [List.drop_eq_nil_of_le (by omega), List.append_nil]
  · have hfree : c.buf.length - (c.tail - c.head) ≠ 0 := by omega
    rw [writeLoop_step c p n hlt hfree]
    have hT := writeChunk_tw c p n (c.buf.length - (c.tail - c.head))
    have hTeq : (writeChunk c p n (c.buf.length - (c.tail - c.head))).2 =
        p.length - n := by omega
    obtain ⟨hh, hmk, hcl, hbl, htl⟩ :=
      writeChunk_fields c p n (c.buf.length - (c.tail - c.head))
    have hblen := writeChunk_buflen c p n (c.buf.length - (c.tail - c.head)) hm
    have hcont := writeChunk_contents c p n hwf (Nat.le_of_lt hlt) hfree
    rw [writeLoop_base _ p _ (by omega)]
    refine ⟨_, by rw [hTeq]; congr 1; · congr 1; omega, hh, by omega, hmk, hcl, hbl,
      hblen, ?_⟩
    rw [hcont]
    congr 1
    rw [Nat.min_eq_left (by omega), List.take_of_length_le (by rw [List.length_drop] )]

/-- Non-blocking write that exceeds the free space: fills the free space,
then stops with `ErrFull` and the partial count. -/
lemma writeLoop_overfull (c : Circulis) (p : List Nat) (n : Nat)
    (hwf : wf c) (hnb : c.blocking = false) (hn : n ≤ p.length)
    (hover : c.buf.length - (c.tail - c.head) < p.length - n) :
    ∃ c', writeLoop c p n =
        (c', .ret (n + (c.buf.length - (c.tail - c.head))) (some .full)) ∧
      c'.head = c.head ∧
      c'.tail = c.tail + (c.buf.length - (c.tail - c.head)) ∧
      c'.mask = c.mask ∧ c'.closed = c.closed ∧ c'.blocking = c.blocking ∧
      c'.buf.length = c.buf.length ∧
      contents c' = contents c ++
        (p.drop n).take (c.buf.length - (c.tail - c.head)) := by
  obtain ⟨⟨k, hk⟩, hm, hht, hcap⟩ := id hwf
  have hlt : n < p.length := by omega
  rcases Nat.eq_zero_or_pos (c.buf.length - (c.tail - c.head)) with hfree | hfree
  · refine ⟨c, ?_, rfl, by omega, rfl, rfl, rfl, rfl, ?_⟩
    · rw [writeLoop_full_stop c p n hlt hfree hnb, hfree]
      simp
    · rw [hfree]
      simp
  · have hfree' : c.buf.length - (c.tail - c.head) ≠ 0 := by omega
    rw [writeLoop_step c p n hlt hfree']
    have hT := writeChunk_tw c p n (c.buf.length - (c.tail - c.head))
    have hTeq : (writeChunk c p n (c.buf.length - (c.tail - c.head))).2 =
        c.buf.length - (c.tail - c.head) := by omega
    obtain ⟨hh, hmk, hcl, hbl, htl⟩ :=
      writeChunk_fields c p n (c.buf.length - (c.tail - c.head))
    have hblen := writeChunk_buflen c p n (c.buf.length - (c.tail - c.head)) hm
    have hcont := writeChunk_contents c p n hwf (Nat.le_of_lt hlt) hfree'
    set c₂ := (writeChunk c p n (c.buf.length - (c.tail - c.head))).1 with hc2
    have hfull2 : c₂.buf.length - (c₂.tail - c₂.head) = 0 := by
      rw [hblen, htl, hh, hTeq]
      omega
    rw [writeLoop_full_stop c₂ p _ (by omega) hfull2 (by rw [hbl]; exact hnb)]
    refine ⟨c₂, by rw [hTeq], hh, by omega, hmk, hcl, hbl, hblen, ?_⟩
    rw [hcont]
    congr 1
    congr 1
    omega

/-- `writeLoop` preserves well-formedness and the identity of everything but
`buf`'s contents and `tail`, for every outcome (including waits). -/
lemma writeLoop_invariant : ∀ (fuel : Nat) (c : Circulis) (p : List Nat) (n : Nat)
    (c' : Circulis) (out : WriteOut), p.length - n ≤ fuel → wf c →
    writeLoop c p n = (c', out) →
    wf c' ∧ c'.head = c.head ∧ c'.mask = c.mask ∧ c'.closed = c.closed ∧
      c'.blocking = c.blocking ∧ c'.buf.length = c.buf.length ∧ c.tail ≤ c'.tail := by
  intro fuel
  induction fuel with
  | zero =>
    intro c p n c' out hfuel hwf hrun
    rw [writeLoop_base c p n (by omega)] at hrun
    cases hrun
    exact ⟨hwf, rfl, rfl, rfl, rfl, rfl, Nat.le_refl _⟩
  | succ f IH =>
    intro c p n c' out hfuel hwf hrun
    by_cases hlt : n < p.length
    · by_cases hfree : c.buf.length - (c.tail - c.head) = 0
      · cases hb : c.blocking
        · rw [writeLoop_full_stop c p n hlt hfree hb] at hrun
          cases hrun
          exact ⟨hwf, rfl, rfl, rfl, hb, rfl, Nat.le_refl _⟩
        · rw [writeLoop_full_wait c p n hlt hfree hb] at hrun
          cases hrun
          exact ⟨hwf, rfl, rfl, rfl, hb, rfl, Nat.le_refl _⟩
      · obtain ⟨⟨k, hk⟩, hm, hht, hcap⟩ := id hwf
        rw [writeLoop_step c p n hlt hfree] at hrun
        have hT := writeChunk_tw c p n (c.buf.length - (c.tail - c.head))
        obtain ⟨hh, hmk, hcl, hbl, htl⟩ :=
          writeChunk_fields c p n (c.buf.length - (c.tail - c.head))
        have hblen := writeChunk_buflen c p n (c.buf.length - (c.tail - c.head)) hm
        set c₂ := (writeChunk c p n (c.buf.length - (c.tail - c.head))).1 with hc2
        have hwf2 : wf c₂ := by
          refine ⟨⟨k, by rw [hblen, hk]⟩, by omega, by omega, ?_⟩
          rw [hblen, htl, hh]
          omega
        have hpos := writeChunk_snd_pos c p n (c.buf.length - (c.tail - c.head))
          hlt hfree
        obtain ⟨h1, h2, h3, h4, h5, h6, h7⟩ := IH c₂ p _ c' out (by omega) hwf2 hrun
        exact ⟨h1, by omega, by rw [h3, hmk], by rw [h4, hcl], by rw [h5, hbl],
          by rw [h6, hblen], by omega⟩
    · rw [writeLoop_base c p n hlt] at hrun
      cases hrun
      exact ⟨hwf, rfl, rfl, rfl, rfl, rfl, Nat.le_refl _⟩

/-- Field preservation for `writeLoop` without any well-formedness
assumption (the loop never touches `head`, `mask`, `closed`, `blocking`). -/
lemma writeLoop_fieldsOnly : ∀ (fuel : Nat) (c : Circulis) (p : List Nat) (n : Nat)
    (c' : Circulis) (out : WriteOut), p.length - n ≤ fuel →
    writeLoop c p n = (c', out) →
    c'.head = c.head ∧ c'.mask = c.mask ∧ c'.closed = c.closed ∧
      c'.blocking = c.blocking := by
  intro fuel
  induction fuel with
  | zero =>
    intro c p n c' out hfuel hrun
    rw [writeLoop_base c p n (by omega)] at hrun
    cases hrun
    exact ⟨rfl, rfl, rfl, rfl⟩
  | succ f IH =>
    intro c p n c' out hfuel hrun
    by_cases hlt : n < p.length
    · by_cases hfree : c.buf.length - (c.tail - c.head) = 0
      · cases hb : c.blocking
        · rw [writeLoop_full_stop c p n hlt hfree hb] at hrun
          cases hrun
          exact ⟨rfl, rfl, rfl, hb⟩
        · rw [writeLoop_full_wait c p n hlt hfree hb] at hrun
          cases hrun
          exact ⟨rfl, rfl, rfl, hb⟩
      · rw [writeLoop_step c p n hlt hfree] at hrun
        obtain ⟨hh, hmk, hcl, hbl, htl⟩ :=
          writeChunk_fields c p n (c.buf.length - (c.tail - c.head))
        have hpos := writeChunk_snd_pos c p n (c.buf.length - (c.tail - c.head))
          hlt hfree
        obtain ⟨h2, h3, h4, h5⟩ := IH _ p _ c' out (by omega) hrun
        exact ⟨by rw [h2, hh], by rw [h3, hmk], by rw [h4, hcl], by rw [h5, hbl]⟩
    · rw [writeLoop_base c p n hlt] at hrun
      cases hrun
      exact ⟨rfl, rfl, rfl, rfl⟩

/-! ### Read: the empty-buffer branches -/

lemma Read_closed_drained (c : Circulis) (p : List Nat)
    (havail : c.tail - c.head = 0) (hcl : c.closed = true) :
    Read c p = (c, .ret p 0 (some .closed)) := by
  simp [Read, havail, hcl]

lemma Read_empty_nb (c : Circulis) (p : List Nat)
    (havail : c.tail - c.head = 0) (hcl : c.closed = false)
    (hnb : c.blocking = false) :
    Read c p = (c, .ret p 0 (some .empty)) := by
  simp [Read, havail, hcl, hnb]

lemma Read_empty_wait (c : Circulis) (p : List Nat)
    (havail : c.tail - c.head = 0) (hcl : c.closed = false)
    (hb : c.blocking = true) :
    Read c p = (c, .wait p) := by
  simp [Read, havail, hcl, hb]

/-! ### Characterization of the two-segment wraparound read -/

lemma twoSegRead_length (buf : List Nat) (start : Nat) (p : List Nat)
    (toRead : Nat) (htr : toRead ≤ p.length) :
    (twoSegRead buf start p toRead).length = p.length := by
  have h2 : ∀ src : List Nat, (copyInto p 0 src).length = p.length :=
    fun src => copyInto_length _ _ _ (Nat.zero_le _)
  simp only [twoSegRead]
  split_ifs with ha hb hc
  · rw [copyInto_length _ _ _ (by rw [h2]; omega), h2]
  · exact h2 _
  · omega
  · exact h2 _

/-- The filled prefix of the caller buffer: `p[j]` becomes the byte at
physical slot `(start + j) % len` for `j < toRead`. -/
lemma twoSegRead_getElem_new (buf : List Nat) (start : Nat) (p : List Nat)
    (toRead : Nat) (hstart : start < buf.length) (htoRead : toRead ≤ buf.length)
    (htr : toRead ≤ p.length) (j : Nat) (hj : j < toRead) :
    (twoSegRead buf start p toRead)[j]? = buf[(start + j) % buf.length]? := by
  have hL0 : 0 < buf.length := by omega
  simp only [twoSegRead]
  rw [ite_gt_eq_min]
  set L := buf.length with hL
  set fst := min toRead (L - start) with hfst
  have hfst1 : fst ≤ L - start := Nat.min_le_right _ _
  have hfst2 : fst ≤ toRead := Nat.min_le_left _ _
  have hsrc1 : ((buf.drop start).take fst).length = fst := by
    rw [List.length_take, List.length_drop]; omega
  have hp1len : (copyInto p 0 ((buf.drop start).take fst)).length = p.length :=
    copyInto_length _ _ _ (Nat.zero_le _)
  have hp1 : ∀ i, (copyInto p 0 ((buf.drop start).take fst))[i]? =
      if i < fst then ((buf.drop start).take fst)[i]? else p[i]? := by
    intro i
    have h0 := copyInto_getElem? p 0 ((buf.drop start).take fst)
      (by rw [hsrc1]; omega) i
    rw [hsrc1] at h0
    rw [h0]
    by_cases hi : i < fst
    · rw [if_pos ⟨Nat.zero_le _, by omega⟩, if_pos hi]
      congr 1
    · rw [if_neg (by omega), if_neg hi]
  set snd := toRead - fst with hsnd
  rcases Nat.lt_or_ge j fst with hjf | hjf
  · -- straight segment
    have hidx : (start + j) % L = start + j := Nat.mod_eq_of_lt (by omega)
    have hmain : (copyInto p 0 ((buf.drop start).take fst))[j]? =
        buf[start + j]? := by
      rw [hp1, if_pos hjf, List.getElem?_take, if_pos hjf, List.getElem?_drop]
    rw [hidx]
    split
    · rename_i hsndpos
      have hsrc2 : (buf.take snd).length = snd := by
        rw [List.length_take]; omega
      have h0 := copyInto_getElem? (copyInto p 0 ((buf.drop start).take fst)) fst
        (buf.take snd) (by rw [hsrc2, hp1len]; omega) j
      rw [hsrc2] at h0
      rw [h0, if_neg (by omega)]
      exact hmain
    · exact hmain
  · -- wrapped segment
    have hfsteq : fst = L - start := by omega
    have hsndpos : 0 < snd := by omega
    have hidx : (start + j) % L = j - fst := by
      rw [mod_eq_sub_of_between (by omega) (by omega)]; omega
    have hsrc2 : (buf.take snd).length = snd := by
      rw [List.length_take]; omega
    have h0 := copyInto_getElem? (copyInto p 0 ((buf.drop start).take fst)) fst
      (buf.take snd) (by rw [hsrc2, hp1len]; omega) j
    rw [hsrc2] at h0
    rw [if_pos hsndpos, h0, if_pos ⟨by omega, by omega⟩, hidx, List.getElem?_take,
      if_pos (by omega)]

/-- Beyond the read count the caller buffer keeps its old entries. -/
lemma twoSegRead_getElem_old (buf : List Nat) (start : Nat) (p : List Nat)
    (toRead : Nat) (hstart : start < buf.length) (htoRead : toRead ≤ buf.length)
    (htr : toRead ≤ p.length) (j : Nat) (hj : toRead ≤ j) :
    (twoSegRead buf start p toRead)[j]? = p[j]? := by
  have hL0 : 0 < buf.length := by omega
  simp only [twoSegRead]
  rw [ite_gt_eq_min]
  set L := buf.length with hL
  set fst := min toRead (L - start) with hfst
  have hfst1 : fst ≤ L - start := Nat.min_le_right _ _
  have hfst2 : fst ≤ toRead := Nat.min_le_left _ _
  have hsrc1 : ((buf.drop start).take fst).length = fst := by
    rw [List.length_take, List.length_drop]; omega
  have hp1len : (copyInto p 0 ((buf.drop start).take fst)).length = p.length :=
    copyInto_length _ _ _ (Nat.zero_le _)
  have hmain : (copyInto p 0 ((buf.drop start).take fst))[j]? = p[j]? := by
    have h0 := copyInto_getElem? p 0 ((buf.drop start).take fst)
      (by rw [hsrc1]; omega) j
    rw [hsrc1] at h0
    rw [h0, if_neg (by omega)]
  set snd := toRead - fst with hsnd
  split
  · rename_i hsndpos
    have hsrc2 : (buf.take snd).length = snd := by
      rw [List.length_take]; omega
    have h0 := copyInto_getElem? (copyInto p 0 ((buf.drop start).take fst)) fst
      (buf.take snd) (by rw [hsrc2, hp1len]; omega) j
    rw [hsrc2] at h0
    rw [h0, if_neg (by omega)]
    exact hmain
  · exact hmain

lemma Read_data_eq (c : Circulis) (p : List Nat) (havail : 0 < c.tail - c.head) :
    Read c p =
      (⟨c.buf, c.mask, c.head + min p.length (c.tail - c.head), c.tail,
        c.closed, c.blocking⟩,
       .ret (twoSegRead c.buf (c.head &&& c.mask) p
          (min p.length (c.tail - c.head)))
        (min p.length (c.tail - c.head)) none) := by
  simp only [Read, ite_gt_eq_min]
  rw [if_neg (by omega)]

/-- What a successful `Read` puts in the caller's buffer: the first
`min (len p) available` bytes of the FIFO contents, the rest untouched. -/
lemma Read_data_spec (c : Circulis) (p : List Nat) (hwf : wf c)
    (havail : 0 < c.tail - c.head) :
    (twoSegRead c.buf (c.head &&& c.mask) p
        (min p.length (c.tail - c.head))).length = p.length ∧
    (∀ j, j < min p.length (c.tail - c.head) →
      (twoSegRead c.buf (c.head &&& c.mask) p
        (min p.length (c.tail - c.head)))[j]? = (contents c)[j]?) ∧
    (∀ j, min p.length (c.tail - c.head) ≤ j →
      (twoSegRead c.buf (c.head &&& c.mask) p
        (min p.length (c.tail - c.head)))[j]? = p[j]?) := by
  obtain ⟨⟨k, hk⟩, hm, hht, hcap⟩ := id hwf
  have hL0 : 0 < c.buf.length := by omega
  have hmaskc : ∀ x, x &&& c.mask = x % c.buf.length := and_mask_eq_mod c hwf
  have hstart : c.head &&& c.mask < c.buf.length := by
    rw [hmaskc]; exact Nat.mod_lt _ hL0
  have hmle : min p.length (c.tail - c.head) ≤ p.length := Nat.min_le_left _ _
  have hmav : min p.length (c.tail - c.head) ≤ c.tail - c.head :=
    Nat.min_le_right _ _
  refine ⟨twoSegRead_length _ _ _ _ hmle, ?_, ?_⟩
  · intro j hj
    rw [twoSegRead_getElem_new c.buf (c.head &&& c.mask) p _ hstart (by omega)
      hmle j hj]
    rw [contents_getElem?, if_pos (by omega),
      show c.head + j &&& c.mask = (c.head + j) % c.buf.length from hmaskc _]
    have hidx : ((c.head &&& c.mask) + j) % c.buf.length =
        (c.head + j) % c.buf.length := by
      rw [hmaskc c.head, Nat.mod_add_mod]
    rw [hidx, getElem?_eq_some_getD _ _ (Nat.mod_lt _ hL0)]
  · intro j hj
    exact twoSegRead_getElem_old c.buf (c.head &&& c.mask) p _ hstart (by omega)
      hmle j hj

/-! ### Correctness of the bit-smearing capacity rounding -/

lemma testBit_or_shiftRight (x s i : Nat) :
    (x ||| (x >>> s)).testBit i = (x.testBit i || x.testBit (i + s)) := by
  rw [Nat.testBit_lor, Nat.testBit_shiftRight, Nat.add_comm s i]

/-- `x` is `w` with every bit smeared `s` positions downwards: bit `i` of
`x` is set iff some bit of `w` in the window `[i, i+s)` is set. -/
def SmearWindow (w x s : Nat) : Prop :=
  ∀ i, x.testBit i = true ↔ ∃ d, d < s ∧ w.testBit (i + d) = true

lemma smearWindow_base (w : Nat) : SmearWindow w w 1 := by
  intro i
  constructor
  · intro h
    exact ⟨0, Nat.zero_lt_one, by simpa using h⟩
  · rintro ⟨d, hd, hb⟩
    have hd0 : d = 0 := by omega
    subst hd0
    simpa using hb

lemma smearWindow_step (w x s : Nat) (h : SmearWindow w x s) :
    SmearWindow w (x ||| (x >>> s)) (s + s) := by
  intro i
  rw [testBit_or_shiftRight, Bool.or_eq_true, h i, h (i + s)]
  constructor
  · rintro (⟨d, hd, hb⟩ | ⟨d, hd, hb⟩)
    · exact ⟨d, by omega, hb⟩
    · exact ⟨s + d, by omega, by rwa [← Nat.add_assoc] ⟩
  · rintro ⟨d, hd, hb⟩
    rcases Nat.lt_or_ge d s with hds | hds
    · exact Or.inl ⟨d, hds, hb⟩
    · exact Or.inr ⟨d - s, by omega, by
        rwa [show i + s + (d - s) = i + d by omega]⟩

lemma testBit_size_pred (w : Nat) (hw : w ≠ 0) :
    w.testBit (w.size - 1) = true := by
  have hsz : 0 < w.size := Nat.size_pos.mpr (Nat.pos_of_ne_zero hw)
  have h1 : 2 ^ (w.size - 1) ≤ w := Nat.lt_size.mp (by omega)
  have h2 : w < 2 ^ w.size := Nat.lt_size_self w
  have hpow : 2 ^ w.size = 2 ^ (w.size - 1) * 2 := by
    rw [← Nat.pow_succ]
    congr 1
    omega
  have hppos : 0 < 2 ^ (w.size - 1) := Nat.pos_pow_of_pos _ (by norm_num)
  have hdiv : w / 2 ^ (w.size - 1) = 1 := by
    have hle : 1 ≤ w / 2 ^ (w.size - 1) :=
      (Nat.le_div_iff_mul_le hppos).mpr (by omega)
    have hlt : w / 2 ^ (w.size - 1) < 2 :=
      (Nat.div_lt_iff_lt_mul hppos).mpr (by omega)
    omega
  rw [Nat.testBit_to_div_mod, hdiv]
  decide

lemma testBit_lt_size (w j : Nat) (h : w.testBit j = true) : j < w.size := by
  by_contra hge
  rw [Nat.testBit_lt_two_pow] at h
  · exact Bool.false_ne_true h
  · calc w < 2 ^ w.size := Nat.lt_size_self w
      _ ≤ 2 ^ j := Nat.pow_le_pow_right (by norm_num) (by omega)

/-- A full 64-bit smear of `w < 2^64` is exactly `2 ^ w.size - 1`. -/
lemma smearWindow_eq_pow_sub_one (w x : Nat) (hw : w < 2 ^ 64)
    (hx : SmearWindow w x 64) : x = 2 ^ w.size - 1 := by
  have hsize : w.size ≤ 64 := Nat.size_le.mpr hw
  apply Nat.eq_of_testBit_eq
  intro i
  rw [Nat.testBit_two_pow_sub_one]
  rcases Nat.lt_or_ge i w.size with hi | hi
  · have hw0 : w ≠ 0 := by
      intro h0
      subst h0
      rw [Nat.size_zero] at hi
      omega
    have hbit : x.testBit i = true :=
      (hx i).mpr ⟨w.size - 1 - i, by omega, by
        rw [show i + (w.size - 1 - i) = w.size - 1 by omega]
        exact testBit_size_pred w hw0⟩
    rw [hbit]
    simp [hi]
  · have hbit : x.testBit i = false := by
      by_contra hb
      rw [Bool.not_eq_false] at hb
      obtain ⟨d, hd, hset⟩ := (hx i).mp hb
      have := testBit_lt_size w (i + d) hset
      omega
    rw [hbit]
    simp
    omega

/-- For every `uint64` value that can come from a positive Go `int`,
`nextPowerOfTwo` returns `2 ^ size (v - 1)`. -/
lemma nextPowerOfTwo_eq (v : Nat) (h1 : 1 ≤ v) (h2 : v ≤ 2 ^ 63) :
    nextPowerOfTwo v = 2 ^ (v - 1).size := by
  have hsz : (v - 1).size ≤ 63 := Nat.size_le.mpr (by omega)
  have hple : (2:Nat) ^ (v - 1).size ≤ 2 ^ 63 :=
    Nat.pow_le_pow_right (by norm_num) hsz
  have s1 := smearWindow_base (v - 1)
  have s2 := smearWindow_step _ _ _ s1
  have s3 := smearWindow_step _ _ _ s2
  have s4 := smearWindow_step _ _ _ s3
  have s5 := smearWindow_step _ _ _ s4
  have s6 := smearWindow_step _ _ _ s5
  have s7 := smearWindow_step _ _ _ s6
  have hx := smearWindow_eq_pow_sub_one _ _ (by omega) s7
  have hpos : 0 < (2:Nat) ^ (v - 1).size := Nat.pos_pow_of_pos _ (by norm_num)
  simp only [nextPowerOfTwo, if_neg (by omega : ¬ v = 0)]
  rw [hx]
  rw [show 2 ^ (v - 1).size - 1 + 1 = 2 ^ (v - 1).size by omega]
  exact Nat.mod_eq_of_lt (by omega)

/-- `nextPowerOfTwo` computes the least power of two `≥ v`. -/
lemma nextPowerOfTwo_spec (v : Nat) (h1 : 1 ≤ v) (h2 : v ≤ 2 ^ 63) :
    ∃ k, nextPowerOfTwo v = 2 ^ k ∧ v ≤ 2 ^ k ∧
      ∀ j, v ≤ 2 ^ j → 2 ^ k ≤ 2 ^ j := by
  refine ⟨(v - 1).size, nextPowerOfTwo_eq v h1 h2, ?_, ?_⟩
  · have := Nat.lt_size_self (v - 1)
    omega
  · intro j hj
    exact Nat.pow_le_pow_right (by norm_num) (Nat.size_le.mpr (by omega))

/-! ### Construction -/

lemma New_none_of_nonpos (capacity : Int) (h : capacity < 1) :
    New capacity = none := by
  rw [New, if_pos h]

lemma New_eq (capacity : Int) (h1 : 1 ≤ capacity)
    (h2 : nextPowerOfTwo capacity.toNat ≤ 2 ^ 63 - 1) :
    New capacity = some
      ⟨List.replicate (nextPowerOfTwo capacity.toNat) 0,
       nextPowerOfTwo capacity.toNat - 1, 0, 0, false, false⟩ := by
  simp only [New]
  rw [if_neg (by omega), if_neg (by omega)]

lemma New_some_elim (capacity : Int) (c : Circulis)
    (hNew : New capacity = some c) :
    1 ≤ capacity ∧ nextPowerOfTwo capacity.toNat ≤ 2 ^ 63 - 1 ∧
      c = ⟨List.replicate (nextPowerOfTwo capacity.toNat) 0,
           nextPowerOfTwo capacity.toNat - 1, 0, 0, false, false⟩ := by
  simp only [New] at hNew
  split at hNew
  · cases hNew
  · split at hNew
    · cases hNew
    · cases hNew
      refine ⟨by omega, by omega, rfl⟩

lemma New_wf (capacity : Int) (c : Circulis) (h1 : 1 ≤ capacity)
    (h2 : capacity ≤ 2 ^ 63) (hNew : New capacity = some c) : wf c := by
  obtain ⟨-, -, hc⟩ := New_some_elim capacity c hNew
  obtain ⟨k, hk, hge, -⟩ := nextPowerOfTwo_spec capacity.toNat
    (by omega) (by omega)
  subst hc
  refine ⟨⟨k, by simpa using hk⟩, ?_, Nat.le_refl _, by simp⟩
  have hpos : 0 < (2:Nat) ^ k := Nat.pos_pow_of_pos _ (by norm_num)
  simp [hk]
  omega

lemma New_contents (capacity : Int) (c : Circulis)
    (hNew : New capacity = some c) : contents c = [] := by
  obtain ⟨-, -, hc⟩ := New_some_elim capacity c hNew
  subst hc
  simp [contents]

/-! ### Reachable states -/

/-- States reachable from a constructed buffer by any interleaving of the
five public operations; `writeResume` covers a blocked `Write` that resumes
its loop at an arbitrary partial count after a wait. -/
inductive Reachable : Circulis → Prop where
  | new : ∀ capacity c, New capacity = some c → capacity ≤ 2 ^ 63 → Reachable c
  | write : ∀ c p c' out, Reachable c → Write c p = (c', out) → Reachable c'
  | writeResume : ∀ c p n c' out, Reachable c → writeLoop c p n = (c', out) →
      Reachable c'
  | read : ∀ c p c' out, Reachable c → Read c p = (c', out) → Reachable c'
  | close : ∀ c, Reachable c → Reachable (Close c)
  | setBlocking : ∀ c b, Reachable c → Reachable (SetBlocking c b)

/-- `Read` preserves well-formedness and everything except `head`. -/
lemma Read_wf (c : Circulis) (p : List Nat) (c' : Circulis) (out : ReadOut)
    (hwf : wf c) (hrun : Read c p = (c', out)) :
    wf c' ∧ c'.tail = c.tail ∧ c'.mask = c.mask ∧ c'.closed = c.closed ∧
      c'.blocking = c.blocking ∧ c'.buf = c.buf := by
  obtain ⟨⟨k, hk⟩, hm, hht, hcap⟩ := id hwf
  rcases Nat.eq_zero_or_pos (c.tail - c.head) with hav | hav
  · have hc' : c' = c := by
      rcases hcl : c.closed with h | h
      · rcases hb : c.blocking with h2 | h2
        · rw [Read_empty_nb c p hav hcl hb] at hrun
          exact (Prod.mk.injEq _ _ _ _ ▸ hrun).1.symm ▸ rfl
        · rw [Read_empty_wait c p hav hcl hb] at hrun
          exact (Prod.mk.injEq _ _ _ _ ▸ hrun).1.symm ▸ rfl
      · rw [Read_closed_drained c p hav hcl] at hrun
        exact (Prod.mk.injEq _ _ _ _ ▸ hrun).1.symm ▸ rfl
    subst hc'
    exact ⟨hwf, rfl, rfl, rfl, rfl, rfl⟩
  · rw [Read_data_eq c p hav] at hrun
    have hc' : c' = ⟨c.buf, c.mask, c.head + min p.length (c.tail - c.head),
        c.tail, c.closed, c.blocking⟩ := by
      cases hrun
      rfl
    subst hc'
    refine ⟨⟨⟨k, hk⟩, hm, ?_, ?_⟩, rfl, rfl, rfl, rfl, rfl⟩
    · simp
      omega
    · simp
      omega

/-- Every reachable state is well-formed. -/
lemma reachable_wf (c : Circulis) (h : Reachable c) : wf c := by
  induction h with
  | new capacity c hNew hle =>
    have h1 : 1 ≤ capacity := (New_some_elim capacity c hNew).1
    exact New_wf capacity c h1 hle hNew
  | write c p c' out hre hrun ih =>
    unfold Write at hrun
    split at hrun
    · cases hrun
      exact ih
    · exact (writeLoop_invariant (p.length - 0) c p 0 c' out (Nat.le_refl _)
        ih hrun).1
  | writeResume c p n c' out hre hrun ih =>
    exact (writeLoop_invariant (p.length - n) c p n c' out (Nat.le_refl _)
      ih hrun).1
  | read c p c' out hre hrun ih =>
    exact (Read_wf c p c' out ih hrun).1
  | close c hre ih =>
    obtain ⟨hk, hm, hht, hcap⟩ := ih
    exact ⟨hk, hm, hht, hcap⟩
  | setBlocking c b hre ih =>
    obtain ⟨hk, hm, hht, hcap⟩ := ih
    exact ⟨hk, hm, hht, hcap⟩

/-! ### Sequences of writes -/

/-- The state after a sequence of `Write` calls. -/
def writeSeq (c : Circulis) (ps : List (List Nat)) : Circulis :=
  ps.foldl (fun s q => (Write s q).1) c

lemma contents_eq_nil (c : Circulis) (h : c.tail - c.head = 0) :
    contents c = [] := by
  simp [contents, h]

lemma take_eq_of_getElem?_eq (xs target : List Nat) (m : Nat)
    (hlen : target.length = m) (hm : m ≤ xs.length)
    (h : ∀ j, j < m → xs[j]? = target[j]?) : xs.take m = target := by
  apply List.ext_getElem?
  intro j
  rw [List.getElem?_take]
  by_cases hj : j < m
  · rw [if_pos hj]
    exact h j hj
  · rw [if_neg hj, List.getElem?_eq_none (by omega)]

/-- Writing a sequence that fits into the free space succeeds call by call
and appends the concatenation to the contents. -/
lemma writeSeq_contents : ∀ (ps : List (List Nat)) (c : Circulis), wf c →
    c.closed = false →
    (c.tail - c.head) + (ps.map List.length).sum ≤ c.buf.length →
    wf (writeSeq c ps) ∧ (writeSeq c ps).closed = false ∧
      (writeSeq c ps).blocking = c.blocking ∧
      (writeSeq c ps).buf.length = c.buf.length ∧
      (writeSeq c ps).head = c.head ∧
      (writeSeq c ps).tail = c.tail + (ps.map List.length).sum ∧
      contents (writeSeq c ps) = contents c ++ ps.flatten := by
  intro ps
  induction ps with
  | nil =>
    intro c hwf hcl hfit
    exact ⟨hwf, hcl, rfl, rfl, rfl, by simp [writeSeq], by simp [writeSeq]⟩
  | cons q ps IH =>
    intro c hwf hcl hfit
    obtain ⟨⟨k, hk⟩, hm, hht, hcap⟩ := id hwf
    simp only [List.map_cons, List.sum_cons] at hfit
    obtain ⟨c₁, hrun, hh, ht, hmk, hcls, hbl, hlen, hcont⟩ :=
      writeLoop_fits c q 0 hwf (Nat.zero_le _) (by omega)
    have hWrite : Write c q = (c₁, .ret q.length none) := by
      rw [Write, if_neg (by rw [hcl]; exact Bool.false_ne_true)]
      exact hrun
    have hseq : writeSeq c (q :: ps) = writeSeq c₁ ps := by
      simp [writeSeq, hWrite]
    have hwf1 : wf c₁ := by
      refine ⟨⟨k, by rw [hlen, hk]⟩, by omega, by omega, by omega⟩
    obtain ⟨h1, h2, h3, h4, h5, h6, h7⟩ := IH c₁ hwf1 (by rw [hcls, hcl])
      (by rw [hlen]; omega)
    rw [hseq]
    refine ⟨h1, h2, by rw [h3, hbl], by rw [h4, hlen], by rw [h5, hh],
      by simp only [List.map_cons, List.sum_cons]; rw [h6, ht]; omega, ?_⟩
    rw [h7, hcont]
    simp

/-- C1: Round-trip with wraparound.  (a) From a fresh buffer, any sequence
of writes totalling at most the effective capacity, followed by one read
into a buffer at least that large, yields exactly the concatenation of the
written bytes (and `ErrEmpty` in the degenerate case of zero bytes, since a
fresh buffer is non-blocking).  (b) From any well-formed empty (head = tail)
open buffer — in particular at any cursor position straddling the physical
end of storage — writing `p` (with `|p| ≤` capacity) and reading it back
returns exactly `p` and leaves the buffer empty again, so alternating
writes and reads across the wraparound never return corrupted or stale
bytes. -/
theorem round_trip_and_wraparound :
    (∀ (capacity : Int) (c₀ : Circulis), New capacity = some c₀ →
      capacity ≤ 2 ^ 63 →
      ∀ ps : List (List Nat), (ps.map List.length).sum ≤ c₀.buf.length →
      ∀ p : List Nat, (ps.map List.length).sum ≤ p.length →
      ∃ c₂ p',
        Read (writeSeq c₀ ps) p =
          (c₂, .ret p' ((ps.map List.length).sum)
            (if (ps.map List.length).sum = 0 then some .empty else none)) ∧
        p'.take ((ps.map List.length).sum) = ps.flatten) ∧
    (∀ c : Circulis, wf c → c.closed = false → c.head = c.tail →
      ∀ p q : List Nat, 0 < p.length → p.length ≤ c.buf.length →
        p.length ≤ q.length →
      ∃ c₁ c₂ q',
        Write c p = (c₁, .ret p.length none) ∧
        Read c₁ q = (c₂, .ret q' p.length none) ∧
        q'.take p.length = p ∧
        c₂.head = c₂.tail ∧ wf c₂ ∧ c₂.closed = false ∧
        c₂.blocking = c.blocking ∧ c₂.buf.length = c.buf.length) := by
  constructor
  · intro capacity c₀ hNew hle ps hfit p hp
    have h1cap : 1 ≤ capacity := (New_some_elim capacity c₀ hNew).1
    have hwf0 := New_wf capacity c₀ h1cap hle hNew
    have hcont0 := New_contents capacity c₀ hNew
    have hfields : c₀.head = 0 ∧ c₀.tail = 0 ∧ c₀.closed = false ∧
        c₀.blocking = false := by
      obtain ⟨-, -, hc⟩ := New_some_elim capacity c₀ hNew
      subst hc
      exact ⟨rfl, rfl, rfl, rfl⟩
    obtain ⟨hh0, ht0, hcl0, hbl0⟩ := hfields
    obtain ⟨hw1, hw2, hw3, hw4, hw5, hw6, hw7⟩ :=
      writeSeq_contents ps c₀ hwf0 hcl0 (by omega)
    rw [hcont0, List.nil_append] at hw7
    by_cases hsum : (ps.map List.length).sum = 0
    · have hflat : ps.flatten = [] :=
        List.eq_nil_of_length_eq_zero (by rw [List.length_flatten]; omega)
      refine ⟨writeSeq c₀ ps, p, ?_, by rw [hsum, hflat]; rfl⟩
      rw [if_pos hsum, hsum]
      exact Read_empty_nb _ p (by omega) (by rw [hw2]) (by rw [hw3, hbl0])
    · have havail : 0 < (writeSeq c₀ ps).tail - (writeSeq c₀ ps).head := by
        omega
      have hmin : min p.length ((writeSeq c₀ ps).tail - (writeSeq c₀ ps).head)
          = (ps.map List.length).sum := by omega
      have hread := Read_data_eq (writeSeq c₀ ps) p havail
      obtain ⟨hr1, hr2, hr3⟩ := Read_data_spec (writeSeq c₀ ps) p hw1 havail
      rw [hmin] at hread hr1 hr2
      have htake : (twoSegRead (writeSeq c₀ ps).buf
          ((writeSeq c₀ ps).head &&& (writeSeq c₀ ps).mask) p
          ((ps.map List.length).sum)).take ((ps.map List.length).sum) =
          ps.flatten := by
        refine take_eq_of_getElem?_eq _ _ _
          (by rw [List.length_flatten]) (by omega) ?_
        intro j hj
        rw [hr2 j hj, hw7]
      refine ⟨{ writeSeq c₀ ps with
          head := (writeSeq c₀ ps).head + (ps.map List.length).sum },
        twoSegRead (writeSeq c₀ ps).buf
          ((writeSeq c₀ ps).head &&& (writeSeq c₀ ps).mask) p
          ((ps.map List.length).sum), ?_, htake⟩
      simp only [if_neg hsum]
      exact hread
  · intro c hwf hcl hht p q hp hpcap hpq
    obtain ⟨⟨k, hk⟩, hm, hle, hcap⟩ := id hwf
    have hA0 : c.tail - c.head = 0 := by omega
    have hcont : contents c = [] := contents_eq_nil c hA0
    obtain ⟨c₁, hrun, hh, ht, hmk, hcls, hbl, hlen, hcont1⟩ :=
      writeLoop_fits c p 0 hwf (Nat.zero_le _) (by omega)
    have hWrite : Write c p = (c₁, .ret p.length none) := by
      rw [Write, if_neg (by rw [hcl]; exact Bool.false_ne_true)]
      exact hrun
    rw [hcont, List.nil_append, List.drop_zero] at hcont1
    have hwf1 : wf c₁ := ⟨⟨k, by rw [hlen, hk]⟩, by omega, by omega, by omega⟩
    have havail1 : 0 < c₁.tail - c₁.head := by omega
    have hmin1 : min q.length (c₁.tail - c₁.head) = p.length := by omega
    have hread := Read_data_eq c₁ q havail1
    obtain ⟨hr1, hr2, hr3⟩ := Read_data_spec c₁ q hwf1 havail1
    rw [hmin1] at hread hr1 hr2
    refine ⟨c₁, _, _, hWrite, hread, ?_, ?_, ?_, ?_, ?_, ?_⟩
    · refine take_eq_of_getElem?_eq _ _ _ rfl (by omega) ?_
      intro j hj
      rw [hr2 j hj, hcont1]
    · simp
      omega
    · refine ⟨⟨k, by simp; omega⟩, by simp; omega, by simp; omega,
        by simp; omega⟩
    · simpa using (by rw [hcls, hcl] : c₁.closed = false)
    · simpa using (by rw [hbl] : c₁.blocking = c.blocking)
    · simpa using hlen

theorem round_trip_and_wraparound_witness :
    (∃ c₂ p',
      Read (writeSeq (⟨List.replicate 8 0, 7, 0, 0, false, false⟩ : Circulis)
          [[1, 2], [3, 4, 5]]) [0, 0, 0, 0, 0] =
        (c₂, .ret p' 5 none) ∧ p'.take 5 = [1, 2, 3, 4, 5]) ∧
    (∃ c₁ c₂ q',
      Write (⟨[9, 9, 9, 9, 9, 9, 9, 9], 7, 5, 5, false, false⟩ : Circulis)
          [1, 2, 3, 4, 5] = (c₁, .ret 5 none) ∧
      Read c₁ [0, 0, 0, 0, 0] = (c₂, .ret q' 5 none) ∧
      q'.take 5 = [1, 2, 3, 4, 5] ∧ c₂.head = c₂.tail) := by
  obtain ⟨hA, hB⟩ := round_trip_and_wraparound
  constructor
  · obtain ⟨c₂, p', h1, h2⟩ := hA 8 ⟨List.replicate 8 0, 7, 0, 0, false, false⟩
      (by decide) (by decide) [[1, 2], [3, 4, 5]] (by decide) [0, 0, 0, 0, 0]
      (by decide)
    rw [show (([[1, 2], [3, 4, 5]] : List (List Nat)).map List.length).sum = 5
      from by decide] at h1 h2
    rw [if_neg (by decide)] at h1
    rw [show ([[1, 2], [3, 4, 5]] : List (List Nat)).flatten = [1, 2, 3, 4, 5]
      from by decide] at h2
    exact ⟨c₂, p', h1, h2⟩
  · obtain ⟨c₁, c₂, q', h1, h2, h3, h4, -, -, -, -⟩ :=
      hB ⟨[9, 9, 9, 9, 9, 9, 9, 9], 7, 5, 5, false, false⟩
        ⟨⟨3, by decide⟩, by decide, by decide, by decide⟩ rfl rfl
        [1, 2, 3, 4, 5] [0, 0, 0, 0, 0] (by decide) (by decide) (by decide)
    exact ⟨c₁, c₂, q', h1, h2, h3, h4⟩

lemma Write_closed_pres (c : Circulis) (p : List Nat) :
    (Write c p).1.closed = c.closed := by
  rw [Write]
  split
  · rfl
  · rcases hw : writeLoop c p 0 with ⟨c', out⟩
    simpa [hw] using
      (writeLoop_fieldsOnly p.length c p 0 c' out (by omega) hw).2.2.1

lemma Read_closed_pres (c : Circulis) (p : List Nat) :
    (Read c p).1.closed = c.closed := by
  simp only [Read]
  split_ifs <;> rfl

/-- C3: Close drain-then-fail asymmetry.  `Close` sets the flag, no
operation ever clears it, and once it is set: every `Write` returns
`(0, ErrClosed)` without copying (even with free space left), while `Read`
keeps returning buffered bytes with no error as long as `tail - head > 0`
and returns `(0, ErrClosed)` once `head == tail`. -/
theorem close_drain_then_fail :
    ∀ (c : Circulis) (p : List Nat) (b : Bool),
      (Close c).closed = true ∧
      (Write c p).1.closed = c.closed ∧
      (Read c p).1.closed = c.closed ∧
      (SetBlocking c b).closed = c.closed ∧
      (c.closed = true →
        Write c p = (c, .ret 0 (some .closed)) ∧
        (c.tail - c.head = 0 → Read c p = (c, .ret p 0 (some .closed))) ∧
        (0 < c.tail - c.head → ∃ c' p',
          Read c p = (c', .ret p' (min p.length (c.tail - c.head)) none))) := by
  intro c p b
  refine ⟨rfl, Write_closed_pres c p, Read_closed_pres c p, rfl, fun hcl => ⟨?_, ?_, ?_⟩⟩
  · rw [Write, if_pos hcl]
  · intro hav
    exact Read_closed_drained c p hav hcl
  · intro hav
    exact ⟨_, _, Read_data_eq c p hav⟩

theorem close_drain_then_fail_witness :
    Write (⟨[1, 2, 3, 4], 3, 0, 2, true, false⟩ : Circulis) [7] =
      (⟨[1, 2, 3, 4], 3, 0, 2, true, false⟩, .ret 0 (some .closed)) ∧
    (∃ c' p', Read (⟨[1, 2, 3, 4], 3, 0, 2, true, false⟩ : Circulis) [0] =
      (c', .ret p' (min 1 2) none)) ∧
    Read (⟨[1, 2, 3, 4], 3, 2, 2, true, false⟩ : Circulis) [0] =
      (⟨[1, 2, 3, 4], 3, 2, 2, true, false⟩, .ret [0] 0 (some .closed)) := by
  refine ⟨?_, ?_, ?_⟩
  · exact ((close_drain_then_fail ⟨[1, 2, 3, 4], 3, 0, 2, true, false⟩ [7]
      false).2.2.2.2 rfl).1
  · exact ((close_drain_then_fail ⟨[1, 2, 3, 4], 3, 0, 2, true, false⟩ [0]
      false).2.2.2.2 rfl).2.2 (by decide)
  · exact (((close_drain_then_fail ⟨[1, 2, 3, 4], 3, 2, 2, true, false⟩ [0]
      false).2.2.2.2 rfl).2.1) (by decide)

/-- C7: A buffer fresh from `New` has `head = tail = 0`, is not closed, and
is in non-blocking mode (the source sets `blocking: false` even though its
doc comment claims otherwise), so its first `Read` returns `(0, ErrEmpty)`
instead of suspending. -/
theorem fresh_buffer_default_nonblocking :
    ∀ (capacity : Int) (c : Circulis), New capacity = some c →
      c.head = 0 ∧ c.tail = 0 ∧ c.closed = false ∧ c.blocking = false ∧
      ∀ p, Read c p = (c, .ret p 0 (some .empty)) := by
  intro capacity c hNew
  obtain ⟨-, -, hc⟩ := New_some_elim capacity c hNew
  subst hc
  exact ⟨rfl, rfl, rfl, rfl, fun p => Read_empty_nb _ p rfl rfl rfl⟩

theorem fresh_buffer_default_nonblocking_witness :
    Read (⟨List.replicate 8 0, 7, 0, 0, false, false⟩ : Circulis) [0, 0] =
      (⟨List.replicate 8 0, 7, 0, 0, false, false⟩,
        .ret [0, 0] 0 (some .empty)) :=
  (fresh_buffer_default_nonblocking 8 _ (by decide)).2.2.2.2 [0, 0]

/-- C10: Writing an empty slice returns `(0, ErrClosed)` when the buffer is
closed and `(0, nil)` otherwise — the state (cursors, bytes, flags) is
returned unchanged in both cases, even on a completely full non-blocking
buffer. -/
theorem write_empty_slice :
    ∀ c : Circulis,
      (c.closed = true → Write c [] = (c, .ret 0 (some .closed))) ∧
      (c.closed = false → Write c [] = (c, .ret 0 none)) := by
  intro c
  constructor
  · intro h
    rw [Write, if_pos h]
  · intro h
    rw [Write, if_neg (by rw [h]; exact Bool.false_ne_true)]
    exact writeLoop_base c [] 0 (by simp)

theorem write_empty_slice_witness :
    Write (⟨[1, 2], 1, 0, 2, true, false⟩ : Circulis) [] =
      (⟨[1, 2], 1, 0, 2, true, false⟩, .ret 0 (some .closed)) ∧
    Write (⟨[1, 2], 1, 0, 2, false, false⟩ : Circulis) [] =
      (⟨[1, 2], 1, 0, 2, false, false⟩, .ret 0 none) :=
  ⟨(write_empty_slice _).1 rfl, (write_empty_slice _).2 rfl⟩

/-- C4: Non-blocking write against insufficient space.  With the buffer
open, non-blocking, and fewer than `len p` bytes free, `Write` copies
exactly the free space (possibly zero) and returns that count with
`ErrFull`: `(0, ErrFull)` when already full, and the partial count with
`ErrFull` when the buffer fills mid-call. -/
theorem nonblocking_full_write :
    ∀ (c : Circulis) (p : List Nat), wf c → c.closed = false →
      c.blocking = false →
      c.buf.length - (c.tail - c.head) < p.length →
      ∃ c', Write c p =
        (c', .ret (c.buf.length - (c.tail - c.head)) (some .full)) ∧
        contents c' = contents c ++
          p.take (c.buf.length - (c.tail - c.head)) := by
  intro c p hwf hcl hnb hover
  obtain ⟨c', hrun, hh, ht, hmk, hcls, hbl, hlen, hcont⟩ :=
    writeLoop_overfull c p 0 hwf hnb (Nat.zero_le _) (by omega)
  rw [Nat.zero_add] at hrun
  refine ⟨c', ?_, ?_⟩
  · rw [Write, if_neg (by rw [hcl]; exact Bool.false_ne_true)]
    exact hrun
  · rw [hcont, List.drop_zero]

theorem nonblocking_full_write_witness :
    (∃ c', Write (⟨[1, 2, 3, 4, 5, 6, 7, 8], 7, 0, 8, false, false⟩ : Circulis)
        [9] = (c', .ret 0 (some .full))) ∧
    (∃ c', Write (⟨[1, 2, 3, 4, 5, 6, 7, 8], 7, 0, 6, false, false⟩ : Circulis)
        [10, 11, 12, 13, 14, 15, 16, 17, 18, 19] =
        (c', .ret 2 (some .full))) := by
  constructor
  · obtain ⟨c', h1, -⟩ := nonblocking_full_write
      ⟨[1, 2, 3, 4, 5, 6, 7, 8], 7, 0, 8, false, false⟩ [9]
      ⟨⟨3, by decide⟩, by decide, by decide, by decide⟩ rfl rfl (by decide)
    exact ⟨c', h1⟩
  · obtain ⟨c', h1, -⟩ := nonblocking_full_write
      ⟨[1, 2, 3, 4, 5, 6, 7, 8], 7, 0, 6, false, false⟩
      [10, 11, 12, 13, 14, 15, 16, 17, 18, 19]
      ⟨⟨3, by decide⟩, by decide, by decide, by decide⟩ rfl rfl (by decide)
    exact ⟨c', h1⟩

/-- C5: Read success postcondition.  Whenever at least one byte is buffered
(in either mode), `Read` copies exactly `min (len p) (tail - head)` bytes —
the first that many bytes of the FIFO contents, starting at `head & mask` —
into the front of the caller's buffer, leaves the rest of it untouched,
advances `head` by exactly that count, and returns that count with no
error; a partial read is never an error. -/
theorem read_success_postcondition :
    ∀ (c : Circulis) (p : List Nat), wf c → 0 < c.tail - c.head →
      ∃ p', Read c p =
        ({ c with head := c.head + min p.length (c.tail - c.head) },
         .ret p' (min p.length (c.tail - c.head)) none) ∧
        p'.length = p.length ∧
        p'.take (min p.length (c.tail - c.head)) =
          (contents c).take (min p.length (c.tail - c.head)) ∧
        p'.drop (min p.length (c.tail - c.head)) =
          p.drop (min p.length (c.tail - c.head)) := by
  intro c p hwf hav
  have hread := Read_data_eq c p hav
  obtain ⟨hr1, hr2, hr3⟩ := Read_data_spec c p hwf hav
  refine ⟨_, hread, hr1, ?_, ?_⟩
  · apply List.ext_getElem?
    intro j
    rw [List.getElem?_take, List.getElem?_take]
    split
    · exact hr2 j (by assumption)
    · rfl
  · apply List.ext_getElem?
    intro j
    rw [List.getElem?_drop, List.getElem?_drop]
    exact hr3 _ (by omega)

theorem read_success_postcondition_witness :
    ∃ p', Read (⟨[1, 2, 3, 4, 5, 6, 7, 8], 7, 6, 9, false, false⟩ : Circulis)
        [0, 0] =
      (⟨[1, 2, 3, 4, 5, 6, 7, 8], 7, 8, 9, false, false⟩, .ret p' 2 none) ∧
      p'.length = 2 ∧
      p'.take 2 = (contents ⟨[1, 2, 3, 4, 5, 6, 7, 8], 7, 6, 9, false,
        false⟩).take 2 ∧
      p'.drop 2 = [] := by
  obtain ⟨p', h1, h2, h3, h4⟩ := read_success_postcondition
    ⟨[1, 2, 3, 4, 5, 6, 7, 8], 7, 6, 9, false, false⟩ [0, 0]
    ⟨⟨3, by decide⟩, by decide, by decide, by decide⟩ (by decide)
  exact ⟨p', h1, h2, h3, h4⟩

/-- C6: Capacity rounding.  For every capacity a Go `int` can hold, the
storage size chosen by `New` is the least power of two at or above the
request; in particular `nextPowerOfTwo` maps `1024 ↦ 1024`, `1000 ↦ 1024`
and `1 ↦ 1`. -/
theorem capacity_rounding :
    (∀ (capacity : Int) (c : Circulis), 1 ≤ capacity → capacity ≤ 2 ^ 63 →
      New capacity = some c →
      ∃ k, c.buf.length = 2 ^ k ∧ capacity.toNat ≤ 2 ^ k ∧
        ∀ j, capacity.toNat ≤ 2 ^ j → 2 ^ k ≤ 2 ^ j) ∧
    nextPowerOfTwo 1024 = 1024 ∧ nextPowerOfTwo 1000 = 1024 ∧
    nextPowerOfTwo 1 = 1 := by
  refine ⟨?_, by decide, by decide, by decide⟩
  intro capacity c h1 h2 hNew
  obtain ⟨-, -, hc⟩ := New_some_elim capacity c hNew
  subst hc
  obtain ⟨k, hk, hge, hmin⟩ := nextPowerOfTwo_spec capacity.toNat
    (by omega) (by omega)
  exact ⟨k, by simpa using hk, hge, hmin⟩

theorem capacity_rounding_witness :
    ∃ k, (⟨List.replicate 1024 0, 1023, 0, 0, false, false⟩ :
        Circulis).buf.length = 2 ^ k ∧
      (1000 : Int).toNat ≤ 2 ^ k ∧
      ∀ j, (1000 : Int).toNat ≤ 2 ^ j → 2 ^ k ≤ 2 ^ j :=
  capacity_rounding.1 1000 ⟨List.replicate 1024 0, 1023, 0, 0, false, false⟩
    (by decide) (by decide) rfl

/-- C2: Cursor invariant.  In every state reachable from a constructed
buffer by any sequence of `Write`, `Read`, `SetBlocking` and `Close`
(including mid-call wait states), `head ≤ tail` and
`tail - head ≤ effective capacity`; `tail - head` is the byte count and the
read cursor never overtakes the write cursor. -/
theorem cursor_invariant :
    ∀ c : Circulis, Reachable c →
      c.head ≤ c.tail ∧ c.tail - c.head ≤ c.buf.length := by
  intro c h
  obtain ⟨-, -, h3, h4⟩ := reachable_wf c h
  exact ⟨h3, h4⟩

theorem cursor_invariant_witness :
    ((Write (⟨List.replicate 8 0, 7, 0, 0, false, false⟩ : Circulis)
        [1, 2, 3, 4, 5]).1.head ≤
      (Write (⟨List.replicate 8 0, 7, 0, 0, false, false⟩ : Circulis)
        [1, 2, 3, 4, 5]).1.tail) ∧
    (Write (⟨List.replicate 8 0, 7, 0, 0, false, false⟩ : Circulis)
        [1, 2, 3, 4, 5]).1.tail -
      (Write (⟨List.replicate 8 0, 7, 0, 0, false, false⟩ : Circulis)
        [1, 2, 3, 4, 5]).1.head ≤
      (Write (⟨List.replicate 8 0, 7, 0, 0, false, false⟩ : Circulis)
        [1, 2, 3, 4, 5]).1.buf.length :=
  cursor_invariant _
    (Reachable.write ⟨List.replicate 8 0, 7, 0, 0, false, false⟩
      [1, 2, 3, 4, 5] _ _
      (Reachable.new 8 ⟨List.replicate 8 0, 7, 0, 0, false, false⟩ rfl
        (by decide))
      rfl)

/-- The slice indices of `Write`'s copy section
(`c.buf[start : start+first]`, `c.buf[0 : second]`, `p[n : n+toWrite]`, for
the chunk taken at partial count `n`) stay inside their slices. -/
def writeBoundsOk (c : Circulis) (p : List Nat) (n : Nat) : Prop :=
  let free := c.buf.length - (c.tail - c.head)
  let toWrite := min (p.length - n) free
  let start := c.tail &&& c.mask
  let first := min toWrite (c.buf.length - start)
  start + first ≤ c.buf.length ∧ toWrite - first ≤ c.buf.length ∧
    n + toWrite ≤ p.length

/-- The slice indices of `Read`'s copy section
(`c.buf[start : start+first]`, `c.buf[0 : second]`, `p[0 : first]`,
`p[first : first+second]`) stay inside their slices. -/
def readBoundsOk (c : Circulis) (p : List Nat) : Prop :=
  let toRead := min p.length (c.tail - c.head)
  let start := c.head &&& c.mask
  let first := min toRead (c.buf.length - start)
  start + first ≤ c.buf.length ∧ toRead - first ≤ c.buf.length ∧
    toRead ≤ p.length

/-- The exact boundary of the `make([]byte, cap2)` panic: for capacities in
the positive Go-int range, the rounded size stays within the maximum slice
length exactly up to `2^62`, and jumps to `2^63` beyond it. -/
lemma nextPowerOfTwo_slice_bound (capacity : Int) (h1 : 1 ≤ capacity)
    (h2 : capacity ≤ 2 ^ 63 - 1) :
    (capacity ≤ 2 ^ 62 → nextPowerOfTwo capacity.toNat ≤ 2 ^ 62) ∧
    (2 ^ 62 < capacity → nextPowerOfTwo capacity.toNat = 2 ^ 63) := by
  have he := nextPowerOfTwo_eq capacity.toNat (by omega) (by omega)
  constructor
  · intro hle
    rw [he]
    exact Nat.pow_le_pow_right (by norm_num)
      (Nat.size_le.mpr (by omega))
  · intro hgt
    rw [he]
    have hup : (capacity.toNat - 1).size ≤ 63 := Nat.size_le.mpr (by omega)
    have hlo : 62 < (capacity.toNat - 1).size := Nat.lt_size.mpr (by omega)
    congr 1
    omega

/-- Counterexample to C8 as stated: `2^62 + 1` is a positive capacity, yet
`New` panics — `nextPowerOfTwo` rounds it up to `2^63`, which exceeds the
maximum Go slice length `2^63 - 1`, so `make([]byte, cap2)` aborts with
"len out of range". -/
theorem construction_panic_counterexample :
    (0 : Int) < 2 ^ 62 + 1 ∧ New (2 ^ 62 + 1) = none := by
  constructor
  · decide
  · have hb := (nextPowerOfTwo_slice_bound (2 ^ 62 + 1) (by decide)
      (by decide)).2 (by decide)
    simp only [New]
    rw [if_neg (by decide), if_pos (by rw [hb]; decide)]

/-- C8 (amended): `New` aborts iff the capacity is non-positive or exceeds
`2^62` (the rounded size `2^63` then exceeds the maximum Go slice length
`2^63 - 1` and `make([]byte, cap2)` panics); every capacity in
`[1, 2^62]` returns a usable, well-formed handle; and in every reachable
state all slice indices computed by `Write` and `Read` stay in bounds, so
no other operation can abort. -/
theorem construction_and_panic_freedom :
    (∀ capacity : Int, -(2 ^ 63) ≤ capacity → capacity ≤ 2 ^ 63 - 1 →
      (New capacity = none ↔ (capacity ≤ 0 ∨ 2 ^ 62 < capacity))) ∧
    (∀ capacity : Int, 1 ≤ capacity → capacity ≤ 2 ^ 62 →
      ∃ c, New capacity = some c ∧ wf c) ∧
    (∀ c : Circulis, Reachable c →
      (∀ (p : List Nat) (n : Nat), n < p.length → writeBoundsOk c p n) ∧
      (∀ p : List Nat, readBoundsOk c p)) := by
  have hsome : ∀ capacity : Int, 1 ≤ capacity → capacity ≤ 2 ^ 62 →
      ∃ c, New capacity = some c ∧ wf c := by
    intro capacity h1 h2
    have hb := (nextPowerOfTwo_slice_bound capacity h1 (by omega)).1 h2
    exact ⟨_, New_eq capacity h1 (by omega),
      New_wf capacity _ h1 (by omega) (New_eq capacity h1 (by omega))⟩
  refine ⟨?_, hsome, ?_⟩
  · intro capacity hlo hhi
    constructor
    · intro hN
      by_contra hc
      push_neg at hc
      obtain ⟨c, hc1, -⟩ := hsome capacity (by omega) (by omega)
      rw [hN] at hc1
      cases hc1
    · intro hc
      rcases hc with hc | hc
      · exact New_none_of_nonpos capacity (by omega)
      · have hb := (nextPowerOfTwo_slice_bound capacity (by omega) hhi).2 hc
        simp only [New]
        rw [if_neg (by omega), if_pos (by rw [hb]; decide)]
  · intro c hre
    obtain ⟨⟨k, hk⟩, hm, hht, hcap⟩ := reachable_wf c hre
    have hsw : c.tail &&& c.mask ≤ c.mask := Nat.and_le_right
    have hsr : c.head &&& c.mask ≤ c.mask := Nat.and_le_right
    constructor
    · intro p n hn
      refine ⟨by omega, by omega, by omega⟩
    · intro p
      refine ⟨by omega, by omega, by omega⟩

theorem construction_and_panic_freedom_witness :
    (New (-3) = none ↔ ((-3 : Int) ≤ 0 ∨ 2 ^ 62 < (-3 : Int))) ∧
    (∃ c, New 5 = some c ∧ wf c) ∧
    (writeBoundsOk ⟨List.replicate 8 0, 7, 0, 0, false, false⟩ [1, 2, 3] 0 ∧
      readBoundsOk ⟨List.replicate 8 0, 7, 0, 0, false, false⟩ [0, 0]) := by
  refine ⟨construction_and_panic_freedom.1 (-3) (by decide) (by decide),
    construction_and_panic_freedom.2.1 5 (by decide) (by decide), ?_, ?_⟩
  · exact (construction_and_panic_freedom.2.2
      ⟨List.replicate 8 0, 7, 0, 0, false, false⟩
      (Reachable.new 8 ⟨List.replicate 8 0, 7, 0, 0, false, false⟩ rfl
        (by decide))).1 [1, 2, 3] 0 (by decide)
  · exact (construction_and_panic_freedom.2.2
      ⟨List.replicate 8 0, 7, 0, 0, false, false⟩
      (Reachable.new 8 ⟨List.replicate 8 0, 7, 0, 0, false, false⟩ rfl
        (by decide))).2 [0, 0]
